import Mathlib

/-!
Verification of the PDFChat conversation store (src/models.py) and the
streaming chat response assembler (src/api/app.py, chat.generate).

The SQLite-backed store is embedded as a pure state machine over a DB
record: timestamps are abstracted to a numeric clock value passed to each
operation (CURRENT_TIMESTAMP), AUTOINCREMENT row ids are modelled by the
per-table sequence counters convSeq and msgSeq that SQLite keeps in
sqlite_sequence, and each SQL statement is translated clause by clause
(WHERE as filter, ORDER BY as a stable sort, DISTINCT as keep-first
deduplication, LIMIT and OFFSET with SQLite semantics where a negative
LIMIT means no limit and a negative OFFSET means zero).

Connection-level detail that matters: models.py enables the foreign_keys
pragma on the connections opened in _init_db and delete_conversation, but
NOT on the connection opened in add_message.  SQLite defaults the pragma
to off per connection, so the FOREIGN KEY clause of the messages table is
not enforced during add_message; the embedding therefore inserts the
message row unconditionally, exactly as the code does.
-/

namespace PDFChat

/-- Row of the conversations table. -/
structure Conversation where
  id : Nat
  title : String
  created_at : Nat
  updated_at : Nat
deriving DecidableEq

/-- Row of the messages table. -/
structure Message where
  id : Nat
  conversation_id : Nat
  role : String
  content : String
  created_at : Nat
deriving DecidableEq

/-- The persistent state managed by ConversationDB: both tables plus the
sqlite_sequence counters backing the two AUTOINCREMENT primary keys. -/
structure DB where
  conversations : List Conversation
  messages : List Message
  convSeq : Nat
  msgSeq : Nat
deriving DecidableEq

/-- State produced by _init_db on a fresh database file: empty tables,
no AUTOINCREMENT ids handed out yet. -/
def initDB : DB := ⟨[], [], 0, 0⟩

/-- ConversationDB.create_conversation: INSERT INTO conversations (title)
VALUES (?); created_at and updated_at take CURRENT_TIMESTAMP defaults
(the clock argument now); returns cursor.lastrowid.  The Python default
argument for title is the string "New Conversation". -/
def create_conversation (db : DB) (now : Nat)
    (title : String := "New Conversation") : DB × Nat :=
  let newId := db.convSeq + 1
  ({ db with
      conversations := db.conversations ++ [⟨newId, title, now, now⟩],
      convSeq := newId },
   newId)

/-- ConversationDB.update_conversation_title: UPDATE conversations SET
title = ?, updated_at = CURRENT_TIMESTAMP WHERE id = ?. -/
def update_conversation_title (db : DB) (now : Nat) (conversation_id : Nat)
    (title : String) : DB :=
  { db with
      conversations := db.conversations.map fun c =>
        if c.id == conversation_id then
          { c with title := title, updated_at := now }
        else c }

/-- ConversationDB.add_message: INSERT INTO messages (conversation_id,
role, content) VALUES (?, ?, ?) followed by UPDATE conversations SET
updated_at = CURRENT_TIMESTAMP WHERE id = ?.  The connection opened here
never runs PRAGMA foreign_keys = ON, so SQLite does not enforce the
FOREIGN KEY clause: the insert succeeds even when no conversation row has
id conversation_id. -/
def add_message (db : DB) (now : Nat) (conversation_id : Nat)
    (role content : String) : DB :=
  let newId := db.msgSeq + 1
  { db with
      messages := db.messages ++ [⟨newId, conversation_id, role, content, now⟩],
      msgSeq := newId,
      conversations := db.conversations.map fun c =>
        if c.id == conversation_id then { c with updated_at := now } else c }

/-- Shape of one message row as returned by get_conversation (the SELECT
projects role, content, created_at). -/
structure MessageView where
  role : String
  content : String
  created_at : Nat
deriving DecidableEq

/-- Shape of the dict returned by get_conversation. -/
structure ConvView where
  id : Nat
  title : String
  created_at : Nat
  updated_at : Nat
  messages : List MessageView
deriving DecidableEq

/-- ORDER BY id ASC on message rows. -/
def byIdAsc (a b : Message) : Prop := a.id ≤ b.id

instance : DecidableRel byIdAsc := fun a b => Nat.decLe a.id b.id

instance : IsTotal Message byIdAsc := ⟨fun a b => Nat.le_total a.id b.id⟩

instance : IsTrans Message byIdAsc := ⟨fun _ _ _ hab hbc => le_trans hab hbc⟩

/-- ConversationDB.get_conversation: fetch the conversation row by id
(None when absent), then its messages WHERE conversation_id = ?
ORDER BY id ASC.  The datetime(...) rendering of the stored clock values
is abstracted away; the numeric values are returned unchanged. -/
def get_conversation (db : DB) (conversation_id : Nat) : Option ConvView :=
  match db.conversations.find? (fun c => c.id == conversation_id) with
  | none => none
  | some c =>
      let rows := db.messages.filter (fun m => m.conversation_id == conversation_id)
      some ⟨c.id, c.title, c.created_at, c.updated_at,
            (List.insertionSort byIdAsc rows).map fun m =>
              ⟨m.role, m.content, m.created_at⟩⟩

/-- One entry of the lists returned by list_conversations and
search_conversations: the conversation columns plus the computed
message_count subquery. -/
structure ConvEntry where
  id : Nat
  title : String
  created_at : Nat
  updated_at : Nat
  message_count : Nat
deriving DecidableEq

/-- The correlated subquery (SELECT COUNT(*) FROM messages WHERE
conversation_id = c.id). -/
def messageCount (db : DB) (cid : Nat) : Nat :=
  db.messages.countP (fun m => m.conversation_id == cid)

/-- The SELECT projection shared by list_conversations and
search_conversations. -/
def entryOf (db : DB) (c : Conversation) : ConvEntry :=
  ⟨c.id, c.title, c.created_at, c.updated_at, messageCount db c.id⟩

/-- ORDER BY updated_at DESC on result entries. -/
def byUpdatedDesc (a b : ConvEntry) : Prop := b.updated_at ≤ a.updated_at

instance : DecidableRel byUpdatedDesc := fun a b => Nat.decLe b.updated_at a.updated_at

instance : IsTotal ConvEntry byUpdatedDesc := ⟨fun a b => Nat.le_total b.updated_at a.updated_at⟩

instance : IsTrans ConvEntry byUpdatedDesc := ⟨fun _ _ _ hab hbc => le_trans hbc hab⟩

/-- SQLite LIMIT ? OFFSET ? semantics: a negative OFFSET behaves as zero
(Int.toNat sends negatives to zero) and a negative LIMIT means no upper
bound on the number of returned rows. -/
def sqlLimitOffset {α : Type} (limit offset : Int) (l : List α) : List α :=
  let dropped := l.drop offset.toNat
  if limit < 0 then dropped else dropped.take limit.toNat

/-- ConversationDB.list_conversations: all conversations with their
message_count, ORDER BY updated_at DESC, LIMIT ? OFFSET ?. -/
def list_conversations (db : DB) (limit : Int := 50) (offset : Int := 0) :
    List ConvEntry :=
  sqlLimitOffset limit offset
    (List.insertionSort byUpdatedDesc (db.conversations.map (entryOf db)))

/-- ConversationDB.get_recent_conversations: list_conversations with the
given limit and offset zero. -/
def get_recent_conversations (db : DB) (limit : Int := 10) : List ConvEntry :=
  list_conversations db limit 0

/-- SQLite LIKE pattern matching over case-folded character lists, with
the default semantics and no ESCAPE clause: a percent sign in the
pattern matches any run of zero or more characters (tried against every
suffix of the subject), an underscore matches exactly one character, and
any other pattern character must equal the subject character.  Both
sides are folded before the call, matching SQLite's ASCII-only
case-insensitive comparison. -/
def likeRun : List Char → List Char → Bool
  | [], s => s.isEmpty
  | p :: ps, s =>
      if p = '%' then s.tails.any (fun t => likeRun ps t)
      else
        match s with
        | [] => false
        | c :: s2 => (p == '_' || p == c) && likeRun ps s2

/-- SQL expression s LIKE pattern, where search_conversations builds the
pattern by f-string interpolation as percent, q, percent: metacharacters
inside q therefore act as wildcards, not as literals.  SQLite LIKE folds
only the ASCII range, which is exactly what Char.toLower does, and the
percent signs fold to themselves. -/
def likeMatch (s q : String) : Bool :=
  likeRun ('%' :: (q.data.map Char.toLower ++ ['%'])) (s.data.map Char.toLower)

/-- The LEFT JOIN messages m ON c.id = m.conversation_id rows contributed
by one conversation: one row per owned message, or a single row with a
NULL message side when the conversation owns none. -/
def joinRow (db : DB) (c : Conversation) : List (Conversation × Option Message) :=
  match db.messages.filter (fun m => m.conversation_id == c.id) with
  | [] => [(c, none)]
  | ms => ms.map fun m => (c, some m)

/-- WHERE c.title LIKE ? OR m.content LIKE ? on a join row; on the NULL
message side the LIKE is NULL, which WHERE treats as false. -/
def rowWhere (q : String) : Conversation × Option Message → Bool
  | (c, some m) => likeMatch c.title q || likeMatch m.content q
  | (c, none) => likeMatch c.title q

/-- SELECT DISTINCT: keep the first occurrence of each projected row,
dropping later duplicates.  The seen accumulator holds the values kept so
far. -/
def sqlDistinctAux {α : Type} [DecidableEq α] : List α → List α → List α
  | [], _ => []
  | a :: l, seen =>
      if a ∈ seen then sqlDistinctAux l seen
      else a :: sqlDistinctAux l (a :: seen)

/-- SELECT DISTINCT over a row list. -/
def sqlDistinct {α : Type} [DecidableEq α] (l : List α) : List α :=
  sqlDistinctAux l []

/-- ConversationDB.search_conversations: SELECT DISTINCT over the LEFT
JOIN of conversations with messages, WHERE title or content LIKE the
pattern, ORDER BY updated_at DESC, LIMIT ?. -/
def search_conversations (db : DB) (q : String) (limit : Int := 50) :
    List ConvEntry :=
  let rows := db.conversations.flatMap (joinRow db)
  let kept := rows.filter (rowWhere q)
  let distinct := sqlDistinct (kept.map fun r => entryOf db r.1)
  sqlLimitOffset limit 0 (List.insertionSort byUpdatedDesc distinct)

/-- ConversationDB.delete_conversation: with PRAGMA foreign_keys = ON,
DELETE FROM conversations WHERE id = ?; the ON DELETE CASCADE clause
removes the messages of each deleted conversation row.  When no
conversation row matches, nothing is deleted and nothing cascades. -/
def delete_conversation (db : DB) (conversation_id : Nat) : DB :=
  let existed := db.conversations.any (fun c => c.id == conversation_id)
  { db with
      conversations := db.conversations.filter (fun c => !(c.id == conversation_id)),
      messages :=
        if existed then
          db.messages.filter (fun m => !(m.conversation_id == conversation_id))
        else db.messages }

/-- The POST /api/conversations handler in app.py: reads the request
title with data.get, whose default applies only when the key is absent,
then calls create_conversation. -/
def api_create_conversation (db : DB) (now : Nat) (title? : Option String) :
    DB × Nat :=
  create_conversation db now (title?.getD "New Conversation")

/-- One store mutation, used to quantify over arbitrary interleavings of
operations between two points in time. -/
inductive Op where
  | create (now : Nat) (title : String)
  | addMessage (now : Nat) (conversation_id : Nat) (role content : String)
  | updateTitle (now : Nat) (conversation_id : Nat) (title : String)
  | delete (conversation_id : Nat)

/-- Run one operation against the store. -/
def applyOp (db : DB) : Op → DB
  | .create now title => (create_conversation db now title).1
  | .addMessage now cid role content => add_message db now cid role content
  | .updateTitle now cid title => update_conversation_title db now cid title
  | .delete cid => delete_conversation db cid

/-- Run a sequence of operations against the store. -/
def runOps (db : DB) (ops : List Op) : DB := ops.foldl applyOp db

/-- Run a sequence of add_message calls (clock value, role, content)
against one conversation. -/
def addCalls (db : DB) (cid : Nat) (calls : List (Nat × String × String)) : DB :=
  calls.foldl (fun d x => add_message d x.1 cid x.2.1 x.2.2) db

/-- The updated_at column of the given conversation row, defaulting to
zero when the row is absent. -/
def updatedAt (db : DB) (cid : Nat) : Nat :=
  ((db.conversations.find? (fun c => c.id == cid)).map Conversation.updated_at).getD 0

/-- Well-formedness maintained by the store: conversation ids never
exceed the sequence counter and are pairwise distinct; message rows sit
in the table in strictly increasing id order, bounded by their counter.
This is exactly what SQLite guarantees for AUTOINCREMENT keys. -/
def WF (db : DB) : Prop :=
  (∀ c ∈ db.conversations, c.id ≤ db.convSeq) ∧
  (db.conversations.map Conversation.id).Nodup ∧
  db.messages.Pairwise (fun a b => a.id < b.id) ∧
  (∀ m ∈ db.messages, m.id ≤ db.msgSeq)

instance : DecidablePred WF := fun _ => by unfold WF; infer_instance

/-- A conversation matches a search query when its title, or the content
of one of its messages, contains the pattern ASCII-case-insensitively. -/
def convMatches (db : DB) (q : String) (c : Conversation) : Bool :=
  likeMatch c.title q ||
    (db.messages.filter (fun m => m.conversation_id == c.id)).any
      (fun m => likeMatch m.content q)

/-- One retrieval source node as seen by chat.generate: its metadata dict
may lack any of the three keys read there. -/
structure SourceNode where
  file_name : Option String
  page_label : Option String
  file_path : Option String
deriving DecidableEq

/-- Path(file_path).relative_to(DATA_DIR): the relative remainder when
file_path lies strictly under the document root, and a ValueError
(modelled as none) otherwise.  Paths are kept in posix form, matching the
as_posix() call at the use site. -/
def relativeTo (file_path data_dir : String) : Option String :=
  if (data_dir ++ "/").data.isPrefixOf file_path.data then
    some (file_path.drop (data_dir ++ "/").length)
  else none

/-- The deduplication identifier built in chat.generate: the f-string
concatenating file_name, an underscore, and page_label. -/
def sourceKey (n : SourceNode) : String :=
  n.file_name.getD "Unknown" ++ "_" ++ n.page_label.getD ""

/-- The source entry string built in chat.generate for one node:
metadata.get defaults apply ("Unknown" for the file name, empty string
for page label and path), a markdown link is emitted when a file path is
present (falling back to the bare file name when the path does not
resolve under the document root), and "(Page ...)" is appended when the
page label is nonempty. -/
def formatSource (data_dir : String) (n : SourceNode) : String :=
  let file_name := n.file_name.getD "Unknown"
  let page_label := n.page_label.getD ""
  let file_path := n.file_path.getD ""
  if file_path ≠ "" then
    let pdf_url :=
      match relativeTo file_path data_dir with
      | some rel => "/static/pdfs/" ++ rel
      | none => "/static/pdfs/" ++ file_name
    if page_label ≠ "" then
      "[" ++ file_name ++ " (Page " ++ page_label ++ ")](" ++ pdf_url ++ ")"
    else
      "[" ++ file_name ++ "](" ++ pdf_url ++ ")"
  else
    if page_label ≠ "" then file_name ++ " (Page " ++ page_label ++ ")"
    else file_name

/-- The source-collection loop of chat.generate: walk the nodes in order,
skip a node whose key is already in the seen set, otherwise record its
key and append its formatted entry. -/
def buildSourcesAux (data_dir : String) : List SourceNode → List String → List String
  | [], _ => []
  | n :: ns, seen =>
      if sourceKey n ∈ seen then buildSourcesAux data_dir ns seen
      else formatSource data_dir n :: buildSourcesAux data_dir ns (sourceKey n :: seen)

/-- The deduplicated, formatted source list of chat.generate. -/
def buildSources (data_dir : String) (nodes : List SourceNode) : List String :=
  buildSourcesAux data_dir nodes []

/-- The node-level view of the same loop: which nodes survive
deduplication, in encounter order. -/
def dedupNodesAux : List SourceNode → List String → List SourceNode
  | [], _ => []
  | n :: ns, seen =>
      if sourceKey n ∈ seen then dedupNodesAux ns seen
      else n :: dedupNodesAux ns (sourceKey n :: seen)

/-- The nodes kept by the deduplication loop, first occurrence of each
key in encounter order. -/
def dedupNodes (nodes : List SourceNode) : List SourceNode :=
  dedupNodesAux nodes []

/-- The full token stream produced by chat.generate, as observed by the
consumer.  The answer stream is a finite fragment list followed, when
producing the next fragment raises, by the exception carrying the given
message: the except clause yields the inline error marker and the
generator stops, so the sources block is emitted only on error-free
exhaustion, and only when at least one source entry exists. -/
def generate (data_dir : String) (tokens : List String)
    (streamError : Option String) (nodes : List SourceNode) : List String :=
  match streamError with
  | some e => tokens ++ ["\n\nError: " ++ e]
  | none =>
      let sources := buildSources data_dir nodes
      tokens ++
        (if sources.isEmpty then []
         else "\n\n---\n\n**Sources:**\n\n" ::
           sources.enum.map fun p => toString (p.1 + 1) ++ ". " ++ p.2 ++ "\n")

/-! ### Helper lemmas: ASCII case folding, store well-formedness -/

/-- Reading back the code point of a character built from a valid code
point. -/
theorem char_ofNatAux_toNat (n : Nat) (h : Nat.isValidChar n) :
    (Char.ofNatAux n h).toNat = n := by
  simp [Char.ofNatAux, Char.toNat, UInt32.toNat, BitVec.toNat_ofNatLt]

/-- ASCII lowercasing is idempotent, so folding both sides of a LIKE
comparison once fully normalises case. -/
theorem char_toLower_idem (c : Char) : c.toLower.toLower = c.toLower := by
  unfold Char.toLower
  by_cases h : c.toNat ≥ 65 ∧ c.toNat ≤ 90
  · have hv : Nat.isValidChar (c.toNat + 32) := Or.inl (by omega)
    simp only [if_pos h, Char.ofNat, dif_pos hv, char_ofNatAux_toNat]
    rw [if_neg (by omega)]
  · rw [if_neg h, if_neg h]

/-- A character outside the lowercase ASCII letters is its own only
preimage under ASCII lowercasing; in particular the LIKE metacharacters
percent and underscore can only come from themselves. -/
theorem char_toLower_eq_nonletter {c t : Char} (ht : t.toNat < 97 ∨ 122 < t.toNat)
    (h : c.toLower = t) : c = t := by
  by_cases hc : c.toNat ≥ 65 ∧ c.toNat ≤ 90
  · exfalso
    have hv : Nat.isValidChar (c.toNat + 32) := Or.inl (by omega)
    unfold Char.toLower at h
    rw [if_pos hc] at h
    have htn := congrArg Char.toNat h
    rw [show (Char.ofNat (c.toNat + 32)).toNat = c.toNat + 32 from by
      simp only [Char.ofNat, dif_pos hv, char_ofNatAux_toNat]] at htn
    omega
  · unfold Char.toLower at h
    rwa [if_neg hc] at h

/-- First component of the WF invariant. -/
theorem WF.conv_le {db : DB} (h : WF db) : ∀ c ∈ db.conversations, c.id ≤ db.convSeq := h.1

/-- Second component of the WF invariant. -/
theorem WF.ids_nodup {db : DB} (h : WF db) : (db.conversations.map Conversation.id).Nodup := h.2.1

/-- Third component of the WF invariant. -/
theorem WF.msg_lt {db : DB} (h : WF db) :
    db.messages.Pairwise (fun a b => a.id < b.id) := h.2.2.1

/-- Fourth component of the WF invariant. -/
theorem WF.msg_le {db : DB} (h : WF db) : ∀ m ∈ db.messages, m.id ≤ db.msgSeq := h.2.2.2

/-- The UPDATE statements touch updated_at or title but never the primary
key. -/
theorem touch_id (f : Conversation → Conversation) (c : Conversation) (cid : Nat)
    (hf : ∀ c2, (f c2).id = c2.id) :
    ((if c.id == cid then f c else c) : Conversation).id = c.id := by
  split
  · exact hf c
  · rfl

/-- create_conversation preserves the store invariant. -/
theorem wf_create {db : DB} (h : WF db) (now : Nat) (title : String) :
    WF (create_conversation db now title).1 := by
  obtain ⟨h1, h2, h3, h4⟩ := h
  refine ⟨?_, ?_, h3, h4⟩
  · intro c hc
    rcases List.mem_append.mp hc with hold | hnew
    · exact le_trans (h1 c hold) (Nat.le_succ _)
    · rw [List.mem_singleton.mp hnew]
      exact le_refl _
  · show ((db.conversations ++ [_]).map Conversation.id).Nodup
    rw [List.map_append]
    rw [List.nodup_append]
    refine ⟨h2, List.nodup_singleton _, ?_⟩
    intro a ha hb
    rcases List.mem_map.mp ha with ⟨c, hc, rfl⟩
    have := h1 c hc
    simp only [List.map_cons, List.map_nil, List.mem_singleton] at hb
    omega

/-- add_message preserves the store invariant. -/
theorem wf_add {db : DB} (h : WF db) (now cid : Nat) (r ct : String) :
    WF (add_message db now cid r ct) := by
  obtain ⟨h1, h2, h3, h4⟩ := h
  refine ⟨?_, ?_, ?_, ?_⟩
  · intro c hc
    rcases List.mem_map.mp hc with ⟨c0, hc0, rfl⟩
    have hid : ((if c0.id == cid then { c0 with updated_at := now } else c0) :
        Conversation).id = c0.id :=
      touch_id (fun c2 => { c2 with updated_at := now }) c0 cid (fun _ => rfl)
    rw [hid]
    exact h1 c0 hc0
  · show ((db.conversations.map _).map Conversation.id).Nodup
    rw [List.map_map]
    have : (Conversation.id ∘ fun c =>
        if c.id == cid then { c with updated_at := now } else c) = Conversation.id := by
      funext c
      exact touch_id (fun c2 => { c2 with updated_at := now }) c cid (fun _ => rfl)
    rw [this]
    exact h2
  · rw [show (add_message db now cid r ct).messages
        = db.messages ++ [⟨db.msgSeq + 1, cid, r, ct, now⟩] from rfl]
    rw [List.pairwise_append]
    refine ⟨h3, List.pairwise_singleton _ _, ?_⟩
    intro a ha b hb
    rw [List.mem_singleton.mp hb]
    have := h4 a ha
    show a.id < db.msgSeq + 1
    omega
  · intro m hm
    rcases List.mem_append.mp hm with hold | hnew
    · exact le_trans (h4 m hold) (Nat.le_succ _)
    · rw [List.mem_singleton.mp hnew]
      exact le_refl _

/-- update_conversation_title preserves the store invariant. -/
theorem wf_update_title {db : DB} (h : WF db) (now cid : Nat) (title : String) :
    WF (update_conversation_title db now cid title) := by
  obtain ⟨h1, h2, h3, h4⟩ := h
  refine ⟨?_, ?_, h3, h4⟩
  · intro c hc
    rcases List.mem_map.mp hc with ⟨c0, hc0, rfl⟩
    have hid : ((if c0.id == cid then { c0 with title := title, updated_at := now }
        else c0) : Conversation).id = c0.id :=
      touch_id (fun c2 => { c2 with title := title, updated_at := now }) c0 cid (fun _ => rfl)
    rw [hid]
    exact h1 c0 hc0
  · show ((db.conversations.map _).map Conversation.id).Nodup
    rw [List.map_map]
    have : (Conversation.id ∘ fun c =>
        if c.id == cid then { c with title := title, updated_at := now } else c)
        = Conversation.id := by
      funext c
      exact touch_id (fun c2 => { c2 with title := title, updated_at := now }) c cid
        (fun _ => rfl)
    rw [this]
    exact h2

/-- delete_conversation preserves the store invariant. -/
theorem wf_delete {db : DB} (h : WF db) (cid : Nat) : WF (delete_conversation db cid) := by
  obtain ⟨h1, h2, h3, h4⟩ := h
  refine ⟨?_, ?_, ?_, ?_⟩
  · intro c hc
    exact h1 c (List.mem_of_mem_filter hc)
  · exact List.Nodup.sublist (List.Sublist.map _ (List.filter_sublist _)) h2
  · have hmsg : (delete_conversation db cid).messages
        = if db.conversations.any (fun c => c.id == cid) then
            db.messages.filter (fun m => !(m.conversation_id == cid))
          else db.messages := rfl
    rw [hmsg]
    split
    · exact List.Pairwise.sublist (List.filter_sublist _) h3
    · exact h3
  · have hmsg : (delete_conversation db cid).messages
        = if db.conversations.any (fun c => c.id == cid) then
            db.messages.filter (fun m => !(m.conversation_id == cid))
          else db.messages := rfl
    rw [hmsg]
    split
    · intro m hm
      exact h4 m (List.mem_of_mem_filter hm)
    · exact h4

/-- Every operation preserves the store invariant. -/
theorem wf_applyOp {db : DB} (h : WF db) (op : Op) : WF (applyOp db op) := by
  cases op with
  | create now title => exact wf_create h now title
  | addMessage now cid r ct => exact wf_add h now cid r ct
  | updateTitle now cid title => exact wf_update_title h now cid title
  | delete cid => exact wf_delete h cid

/-- Any operation sequence preserves the store invariant. -/
theorem wf_runOps {db : DB} (h : WF db) (ops : List Op) : WF (runOps db ops) := by
  induction ops generalizing db with
  | nil => exact h
  | cons op ops ih => exact ih (wf_applyOp h op)

/-- No operation ever decreases the conversations AUTOINCREMENT counter. -/
theorem convSeq_applyOp (db : DB) (op : Op) : db.convSeq ≤ (applyOp db op).convSeq := by
  cases op with
  | create now title => exact Nat.le_succ _
  | addMessage now cid r ct => exact le_refl _
  | updateTitle now cid title => exact le_refl _
  | delete cid => exact le_refl _

/-- The conversations AUTOINCREMENT counter is monotone along any run. -/
theorem convSeq_runOps (db : DB) (ops : List Op) : db.convSeq ≤ (runOps db ops).convSeq := by
  induction ops generalizing db with
  | nil => exact le_refl _
  | cons op ops ih => exact le_trans (convSeq_applyOp db op) (ih (applyOp db op))

/-! ### Deduplication loop of chat.generate -/

/-- The formatted source list is the per-node formatting of the nodes the
deduplication loop keeps. -/
theorem buildSourcesAux_eq_dedup (d : String) (ns : List SourceNode) :
    ∀ seen, buildSourcesAux d ns seen = (dedupNodesAux ns seen).map (formatSource d) := by
  induction ns with
  | nil => intro seen; rfl
  | cons n ns ih =>
      intro seen
      by_cases h : sourceKey n ∈ seen
      · simp only [buildSourcesAux, dedupNodesAux, if_pos h, ih]
      · simp only [buildSourcesAux, dedupNodesAux, if_neg h, ih, List.map_cons]

/-- The keys of the kept nodes are pairwise distinct and avoid the seen
set. -/
theorem dedupNodesAux_keys_nodup (ns : List SourceNode) :
    ∀ seen, ((dedupNodesAux ns seen).map sourceKey).Nodup ∧
      ∀ k ∈ (dedupNodesAux ns seen).map sourceKey, k ∉ seen := by
  induction ns with
  | nil =>
      intro seen
      exact ⟨List.nodup_nil, by intro k hk; cases hk⟩
  | cons n ns ih =>
      intro seen
      by_cases h : sourceKey n ∈ seen
      · simpa only [dedupNodesAux, if_pos h] using ih seen
      · obtain ⟨ihnodup, ihseen⟩ := ih (sourceKey n :: seen)
        simp only [dedupNodesAux, if_neg h, List.map_cons]
        constructor
        · refine List.nodup_cons.mpr ⟨?_, ihnodup⟩
          intro hmem
          exact ihseen _ hmem (List.mem_cons_self _ _)
        · intro k hk
          rcases List.mem_cons.mp hk with hk | hk
          · rw [hk]; exact h
          · intro hkseen
            exact ihseen k hk (List.mem_cons_of_mem _ hkseen)

/-- The kept nodes form a subsequence of the input: originals survive in
encounter order. -/
theorem dedupNodesAux_sublist (ns : List SourceNode) :
    ∀ seen, (dedupNodesAux ns seen).Sublist ns := by
  induction ns with
  | nil => intro seen; exact List.Sublist.refl _
  | cons n ns ih =>
      intro seen
      by_cases h : sourceKey n ∈ seen
      · simp only [dedupNodesAux, if_pos h]
        exact List.Sublist.cons n (ih seen)
      · simp only [dedupNodesAux, if_neg h]
        exact List.Sublist.cons₂ n (ih (sourceKey n :: seen))

/-- Every input key that is not already in the seen set shows up among
the kept nodes. -/
theorem dedupNodesAux_complete (ns : List SourceNode) :
    ∀ seen, ∀ n ∈ ns, sourceKey n ∉ seen →
      sourceKey n ∈ (dedupNodesAux ns seen).map sourceKey := by
  induction ns with
  | nil => intro seen n hn; cases hn
  | cons n0 ns ih =>
      intro seen n hn hns
      rcases List.mem_cons.mp hn with hn | hn
      · subst hn
        simp only [dedupNodesAux, if_neg hns]
        exact List.mem_cons_self _ _
      · by_cases hk : sourceKey n0 ∈ seen
        · simp only [dedupNodesAux, if_pos hk]
          exact ih seen n hn hns
        · simp only [dedupNodesAux, if_neg hk]
          by_cases he : sourceKey n = sourceKey n0
          · rw [List.map_cons, he]
            exact List.mem_cons_self _ _
          · rw [List.map_cons]
            refine List.mem_cons_of_mem _ (ih (sourceKey n0 :: seen) n hn ?_)
            intro hmem
            rcases List.mem_cons.mp hmem with hx | hx
            · exact he hx
            · exact hns hx

/-! ### Claim theorems -/

/-- C1: the spec requires addMessage to fail with a referential error and
insert nothing when the conversation does not exist.  The code declares
the FOREIGN KEY and turns the pragma on in _init_db and
delete_conversation, but the connection used by add_message leaves the
pragma at its default off, so the call silently inserts an orphan row:
on a fresh store, adding a message to nonexistent conversation 1 leaves
zero conversations yet one message row carrying conversation_id 1. -/
theorem add_message_inserts_orphan_row :
    (add_message initDB 0 1 "user" "hello").conversations = [] ∧
      (add_message initDB 0 1 "user" "hello").messages.countP
        (fun m => m.conversation_id == 1) = 1 := by decide

/-- C2 counterexample: deduplication is keyed on the concatenated string
fileName painted with an underscore and pageLabel, not on the pair, so
the two distinct (fileName, pageLabel) pairs (a_b, c) and (a, b_c)
collide on the key a_b_c and produce a single enumerated line instead of
two: records are not treated as the same source exactly when their pair
matches. -/
theorem sources_dedup_conflates_distinct_pairs :
    (((some "a_b" : Option String), (some "c" : Option String))
        ≠ ((some "a" : Option String), (some "b_c" : Option String))) ∧
      buildSources "/data"
          [⟨some "a_b", some "c", none⟩, ⟨some "a", some "b_c", none⟩]
        = ["a_b (Page c)"] := by decide

/-- C2 amended: two source records are treated as the same source exactly
when their concatenated keys fileName-underscore-pageLabel coincide
(matching pairs always coincide, but distinct pairs may collide); only
the first occurrence of each key is kept, in original encounter order, so
each distinct key yields exactly one formatted source entry. -/
theorem sources_dedup_by_concatenated_key (data_dir : String) (nodes : List SourceNode) :
    buildSources data_dir nodes = (dedupNodes nodes).map (formatSource data_dir) ∧
      ((dedupNodes nodes).map sourceKey).Nodup ∧
      (dedupNodes nodes).Sublist nodes ∧
      ∀ n ∈ nodes, sourceKey n ∈ (dedupNodes nodes).map sourceKey := by
  refine ⟨buildSourcesAux_eq_dedup data_dir nodes [], (dedupNodesAux_keys_nodup nodes []).1,
    dedupNodesAux_sublist nodes [], ?_⟩
  intro n hn
  exact dedupNodesAux_complete nodes [] n hn (by intro hx; cases hx)

/-- C3 counterexample: the claim fails on states that contain an orphan
message (reachable because add_message does not enforce the foreign key):
after inserting a message whose conversation_id 1 has no conversation
row, deleteConversation(1) deletes no conversation and cascades nothing,
so getConversation(1) is indeed null but the messages table still holds a
row with conversation_id 1. -/
theorem delete_conversation_leaves_orphan :
    get_conversation (delete_conversation (add_message initDB 0 1 "user" "hello") 1) 1
        = none ∧
      ¬ ((delete_conversation (add_message initDB 0 1 "user" "hello") 1).messages.countP
          (fun m => m.conversation_id == 1) = 0) := by decide

/-- C3 amended: provided every message referencing the id belongs to an
existing conversation (no orphans for that id), deleteConversation
followed by getConversation returns null and the messages table retains
zero rows with that conversation_id; and when the id does not exist the
delete is an idempotent no-op that changes nothing. -/
theorem delete_conversation_spec (db : DB) (cid : Nat)
    (horphan : (∀ c ∈ db.conversations, c.id ≠ cid) →
      ∀ m ∈ db.messages, m.conversation_id ≠ cid) :
    get_conversation (delete_conversation db cid) cid = none ∧
      (delete_conversation db cid).messages.countP
        (fun m => m.conversation_id == cid) = 0 ∧
      ((∀ c ∈ db.conversations, c.id ≠ cid) → delete_conversation db cid = db) := by
  refine ⟨?_, ?_, ?_⟩
  · have hfind : (delete_conversation db cid).conversations.find?
        (fun c => c.id == cid) = none := by
      rw [List.find?_eq_none]
      intro c hc
      have := (List.mem_filter.mp hc).2
      simp only [Bool.not_eq_true'] at this
      simp [this]
    unfold get_conversation
    rw [hfind]
  · have hmsg : (delete_conversation db cid).messages
        = if db.conversations.any (fun c => c.id == cid) then
            db.messages.filter (fun m => !(m.conversation_id == cid))
          else db.messages := rfl
    rw [hmsg]
    by_cases hex : db.conversations.any (fun c => c.id == cid)
    · rw [if_pos hex]
      rw [List.countP_eq_zero]
      intro m hm
      have := (List.mem_filter.mp hm).2
      simp only [Bool.not_eq_true'] at this
      simp [this]
    · rw [if_neg hex]
      rw [List.countP_eq_zero]
      have hnone : ∀ c ∈ db.conversations, c.id ≠ cid := by
        intro c hc heq
        exact hex (List.any_eq_true.mpr ⟨c, hc, by simp [heq]⟩)
      intro m hm hP
      exact horphan hnone m hm (by simpa using hP)
  · intro hnone
    have hex : db.conversations.any (fun c => c.id == cid) = false := by
      rw [List.any_eq_false]
      intro c hc
      simp [hnone c hc]
    have hconv : db.conversations.filter (fun c => !(c.id == cid)) = db.conversations := by
      rw [List.filter_eq_self]
      intro c hc
      simp [hnone c hc]
    unfold delete_conversation
    rw [hex]
    simp only [Bool.false_eq_true, if_false, hconv]

/-- C3 witness: a conversation with one message, deleted; the theorem
instantiated at that store. -/
theorem delete_conversation_spec_witness :
    get_conversation
        (delete_conversation (add_message (create_conversation initDB 0 "T").1 1 1 "user" "hi") 1) 1
        = none ∧
      (delete_conversation (add_message (create_conversation initDB 0 "T").1 1 1 "user" "hi") 1).messages.countP
        (fun m => m.conversation_id == 1) = 0 ∧
      ((∀ c ∈ (add_message (create_conversation initDB 0 "T").1 1 1 "user" "hi").conversations,
          c.id ≠ 1) →
        delete_conversation (add_message (create_conversation initDB 0 "T").1 1 1 "user" "hi") 1
          = add_message (create_conversation initDB 0 "T").1 1 1 "user" "hi") :=
  delete_conversation_spec (add_message (create_conversation initDB 0 "T").1 1 1 "user" "hi") 1
    (by decide)

/-- C4: when producing a fragment raises after some fragments were
emitted, the consumer sees exactly the emitted fragments, in order and
unchanged, followed by the inline error marker, and nothing else: the
prefix of the output of the emitted length is literally the emitted
fragment list, so nothing is retracted and nothing is silently dropped. -/
theorem stream_error_appends_marker (data_dir : String) (tokens : List String)
    (e : String) (nodes : List SourceNode) :
    generate data_dir tokens (some e) nodes = tokens ++ ["\n\nError: " ++ e] ∧
      (generate data_dir tokens (some e) nodes).take tokens.length = tokens := by
  constructor
  · rfl
  · exact List.take_left tokens _

/-- C5 counterexample: the "New Conversation" default applies only when
the title key is absent from the request (data.get) or the Python
argument is omitted; an explicit empty-string title is stored verbatim,
so the created conversation's title is the empty string, not the
default. -/
theorem create_conversation_keeps_empty_title :
    (api_create_conversation initDB 0 (some "")).1.conversations.map Conversation.title
        = [""] ∧
      ¬ (∀ c ∈ (api_create_conversation initDB 0 (some "")).1.conversations,
          c.title = "New Conversation") := by decide

/-- C5 amended: when the title argument is absent the created
conversation's title is "New Conversation" (an explicit empty string is
kept as given), the new row is appended with created_at equal to
updated_at, and the call returns the id of the inserted row, which
differs from every existing conversation id. -/
theorem create_conversation_default_title (db : DB) (now : Nat) (hwf : WF db) :
    ∃ c : Conversation,
      (api_create_conversation db now none).1.conversations = db.conversations ++ [c] ∧
        c.title = "New Conversation" ∧
        c.created_at = now ∧
        c.updated_at = now ∧
        c.id = (api_create_conversation db now none).2 ∧
        ∀ c2 ∈ db.conversations, c2.id ≠ c.id := by
  refine ⟨⟨db.convSeq + 1, "New Conversation", now, now⟩, rfl, rfl, rfl, rfl, rfl, ?_⟩
  intro c2 hc2 heq
  have hle := hwf.conv_le c2 hc2
  have hid : ((⟨db.convSeq + 1, "New Conversation", now, now⟩ : Conversation)).id
      = db.convSeq + 1 := rfl
  rw [hid] at heq
  omega

/-- C5 witness: the amended theorem instantiated on the fresh store. -/
theorem create_conversation_default_title_witness :
    ∃ c : Conversation,
      (api_create_conversation initDB 5 none).1.conversations = initDB.conversations ++ [c] ∧
        c.title = "New Conversation" ∧
        c.created_at = 5 ∧
        c.updated_at = 5 ∧
        c.id = (api_create_conversation initDB 5 none).2 ∧
        ∀ c2 ∈ initDB.conversations, c2.id ≠ c.id :=
  create_conversation_default_title initDB 5 (by decide)

/-- C9: the conversation id returned by a createConversation call is
strictly smaller than the id returned by any later createConversation
call, whatever operations (including deletes) run in between, and the
later id differs from every id still present; AUTOINCREMENT ids are
assigned from a counter that never decreases, so deleted ids are never
reassigned. -/
theorem conversation_ids_never_reused (db : DB) (hwf : WF db) (ops : List Op)
    (now1 now2 : Nat) (t1 t2 : String) :
    (create_conversation db now1 t1).2
        < (create_conversation (runOps (create_conversation db now1 t1).1 ops) now2 t2).2 ∧
      ∀ c ∈ (runOps (create_conversation db now1 t1).1 ops).conversations,
        c.id ≠ (create_conversation (runOps (create_conversation db now1 t1).1 ops) now2 t2).2 := by
  have hmono := convSeq_runOps (create_conversation db now1 t1).1 ops
  have hstep : (create_conversation db now1 t1).1.convSeq = db.convSeq + 1 := rfl
  have hwf2 := wf_runOps (wf_create hwf now1 t1) ops
  constructor
  · show db.convSeq + 1 < (runOps (create_conversation db now1 t1).1 ops).convSeq + 1
    omega
  · intro c hc
    have hle := hwf2.conv_le c hc
    show c.id ≠ (runOps (create_conversation db now1 t1).1 ops).convSeq + 1
    omega

/-- C9 witness: create, delete the conversation, create again; the fresh
id is strictly larger and the deleted id 1 is not handed out again. -/
theorem conversation_ids_never_reused_witness :
    (create_conversation initDB 0 "A").2
        < (create_conversation (runOps (create_conversation initDB 0 "A").1 [Op.delete 1]) 3 "B").2 ∧
      ∀ c ∈ (runOps (create_conversation initDB 0 "A").1 [Op.delete 1]).conversations,
        c.id ≠ (create_conversation (runOps (create_conversation initDB 0 "A").1 [Op.delete 1]) 3 "B").2 :=
  conversation_ids_never_reused initDB (by decide) [Op.delete 1] 0 3 "A" "B"

/-- C10: a source record whose metadata lacks a file name is not skipped
and raises nothing: the literal "Unknown" is substituted, its formatted
entry is exactly what a record with the real file name "Unknown" would
produce, its deduplication key is Unknown-underscore-pageLabel, and the
record yields an entry of its own in the sources list. -/
theorem missing_file_name_uses_unknown (pl fp : Option String) (d : String) :
    formatSource d ⟨none, pl, fp⟩ = formatSource d ⟨some "Unknown", pl, fp⟩ ∧
      sourceKey ⟨none, pl, fp⟩ = sourceKey ⟨some "Unknown", pl, fp⟩ ∧
      sourceKey ⟨none, pl, fp⟩ = "Unknown_" ++ pl.getD "" ∧
      buildSources d [⟨none, pl, fp⟩] = [formatSource d ⟨none, pl, fp⟩] := by
  refine ⟨rfl, rfl, rfl, ?_⟩
  simp only [buildSources, buildSourcesAux]
  rw [if_neg (by intro hx; cases hx)]

/-- C7 counterexample: the limit is handed to SQLite's LIMIT clause
unchanged, and SQLite treats a negative LIMIT as no limit at all, so
with one stored conversation and limit -1 the call returns one entry,
more than the claimed bound. -/
theorem list_conversations_negative_limit :
    ¬ (((list_conversations (create_conversation initDB 0 "T").1 (-1) 0).length : Int)
        ≤ -1) := by decide

/-- C7 amended: for every nonnegative limit L and every offset,
listConversations returns at most L entries (a negative L means no limit
per SQLite), the entries are sorted by updated_at descending, and each
entry's message_count equals the number of message rows owned by that
conversation. -/
theorem list_conversations_spec (db : DB) (limit offset : Int) (hL : 0 ≤ limit) :
    (list_conversations db limit offset).length ≤ limit.toNat ∧
      (list_conversations db limit offset).Pairwise byUpdatedDesc ∧
      ∀ e ∈ list_conversations db limit offset,
        e.message_count = db.messages.countP (fun m => m.conversation_id == e.id) := by
  have hsorted : (List.insertionSort byUpdatedDesc (db.conversations.map (entryOf db))).Pairwise
      byUpdatedDesc :=
    List.sorted_insertionSort byUpdatedDesc (db.conversations.map (entryOf db))
  have hnotneg : ¬ limit < 0 := Int.not_lt.mpr hL
  have hres : list_conversations db limit offset
      = ((List.insertionSort byUpdatedDesc (db.conversations.map (entryOf db))).drop
          offset.toNat).take limit.toNat := by
    show sqlLimitOffset limit offset _ = _
    unfold sqlLimitOffset
    rw [if_neg hnotneg]
  refine ⟨?_, ?_, ?_⟩
  · rw [hres]
    exact List.length_take_le _ _
  · rw [hres]
    exact List.Pairwise.sublist
      ((List.take_sublist _ _).trans (List.drop_sublist _ _)) hsorted
  · intro e he
    rw [hres] at he
    have hmem : e ∈ List.insertionSort byUpdatedDesc (db.conversations.map (entryOf db)) :=
      ((List.take_sublist _ _).trans (List.drop_sublist _ _)).mem he
    have hmem2 : e ∈ db.conversations.map (entryOf db) :=
      (List.perm_insertionSort byUpdatedDesc _).mem_iff.mp hmem
    rcases List.mem_map.mp hmem2 with ⟨c, _, rfl⟩
    rfl

/-- C7 witness: the amended theorem instantiated with one conversation
and one message, limit 5, offset 0. -/
theorem list_conversations_spec_witness :
    (list_conversations (add_message (create_conversation initDB 0 "T").1 1 1 "user" "hi") 5 0).length ≤ (5 : Int).toNat ∧
      (list_conversations (add_message (create_conversation initDB 0 "T").1 1 1 "user" "hi") 5 0).Pairwise byUpdatedDesc ∧
      ∀ e ∈ list_conversations (add_message (create_conversation initDB 0 "T").1 1 1 "user" "hi") 5 0,
        e.message_count
          = (add_message (create_conversation initDB 0 "T").1 1 1 "user" "hi").messages.countP
              (fun m => m.conversation_id == e.id) :=
  list_conversations_spec (add_message (create_conversation initDB 0 "T").1 1 1 "user" "hi") 5 0
    (by decide)

/-! ### Message ordering and timestamp monotonicity (C8) -/

/-- The UPDATE run by add_message rewrites only the updated_at column, so
looking up the conversation row afterwards finds the same row with its
timestamp replaced. -/
theorem find_conv_add_message (db : DB) (now cid : Nat) (r ct : String) :
    (add_message db now cid r ct).conversations.find? (fun c => c.id == cid)
      = (db.conversations.find? (fun c => c.id == cid)).map
          (fun c => { c with updated_at := now }) := by
  show (db.conversations.map _).find? _ = _
  rw [List.find?_map]
  have hp : ((fun c : Conversation => c.id == cid) ∘ fun c =>
      if c.id == cid then { c with updated_at := now } else c)
      = (fun c : Conversation => c.id == cid) := by
    funext c
    simp only [Function.comp_apply]
    rw [touch_id (fun c2 => { c2 with updated_at := now }) c cid (fun _ => rfl)]
  rw [hp]
  cases hfind : db.conversations.find? (fun c => c.id == cid) with
  | none => rfl
  | some c0 =>
      have hc0 : (c0.id == cid) = true := (List.find?_eq_some.mp hfind).1
      show some (if c0.id == cid then { c0 with updated_at := now } else c0)
          = some ({ c0 with updated_at := now })
      rw [if_pos hc0]

/-- The INSERT run by add_message appends exactly one row for the target
conversation, so the per-conversation filter grows by that row. -/
theorem msgs_filter_add_message (db : DB) (now cid : Nat) (r ct : String) :
    (add_message db now cid r ct).messages.filter (fun m => m.conversation_id == cid)
      = db.messages.filter (fun m => m.conversation_id == cid)
        ++ [⟨db.msgSeq + 1, cid, r, ct, now⟩] := by
  show (db.messages ++ [(⟨db.msgSeq + 1, cid, r, ct, now⟩ : Message)]).filter _ = _
  rw [List.filter_append]
  congr 1
  simp

/-- Under the invariant, the rows of a conversation already sit in id
order, so the ORDER BY id ASC sort leaves the filter untouched. -/
theorem insertionSort_filter_eq (db : DB) (hwf : WF db) (p : Message → Bool) :
    List.insertionSort byIdAsc (db.messages.filter p) = db.messages.filter p := by
  apply List.Sorted.insertionSort_eq
  exact List.Pairwise.imp (fun h => le_of_lt h)
    (List.Pairwise.sublist (List.filter_sublist _) hwf.msg_lt)

/-- One add_message step as seen through get_conversation: the view
keeps its identity and creation time, its updated_at becomes the clock
of the call, and the new message is appended at the end of the list. -/
theorem get_conversation_add_message (db : DB) (hwf : WF db) (cid now : Nat) (r ct : String)
    (v : ConvView) (hget : get_conversation db cid = some v) :
    get_conversation (add_message db now cid r ct) cid
      = some ⟨v.id, v.title, v.created_at, now, v.messages ++ [⟨r, ct, now⟩]⟩ := by
  unfold get_conversation at hget ⊢
  cases hfind : db.conversations.find? (fun c => c.id == cid) with
  | none => rw [hfind] at hget; cases hget
  | some c =>
      rw [hfind] at hget
      have hv := Option.some.inj hget
      rw [find_conv_add_message, hfind]
      show some _ = _
      have hsorted : List.Sorted byIdAsc
          (db.messages.filter (fun m => m.conversation_id == cid)
            ++ [⟨db.msgSeq + 1, cid, r, ct, now⟩]) := by
        show List.Pairwise byIdAsc _
        rw [List.pairwise_append]
        refine ⟨List.Pairwise.imp (fun h => le_of_lt h)
          (List.Pairwise.sublist (List.filter_sublist _) hwf.msg_lt),
          List.pairwise_singleton _ _, ?_⟩
        intro a ha b hb
        rw [List.mem_singleton.mp hb]
        have := hwf.msg_le a (List.mem_of_mem_filter ha)
        show a.id ≤ db.msgSeq + 1
        omega
      rw [msgs_filter_add_message, List.Sorted.insertionSort_eq hsorted, List.map_append]
      rw [insertionSort_filter_eq db hwf] at hv
      rw [← hv]
      rfl

/-- Running a whole list of add_message calls against a conversation:
the final view carries the clock of the last call (or the starting
updated_at when there were none) and the message views of the calls, in
call order, appended to what was already there. -/
theorem addCalls_get (calls : List (Nat × String × String)) :
    ∀ (db : DB) (cid : Nat), WF db →
      ∀ v : ConvView, get_conversation db cid = some v →
        get_conversation (addCalls db cid calls) cid
          = some ⟨v.id, v.title, v.created_at,
                  (calls.map Prod.fst).getLastD v.updated_at,
                  v.messages ++ calls.map (fun x => ⟨x.2.1, x.2.2, x.1⟩)⟩ := by
  induction calls with
  | nil =>
      intro db cid hwf v hget
      show get_conversation db cid = _
      rw [hget]
      congr 1
      cases v
      simp [List.getLastD]
  | cons x xs ih =>
      intro db cid hwf v hget
      have hstep := get_conversation_add_message db hwf cid x.1 x.2.1 x.2.2 v hget
      have hrec := ih (add_message db x.1 cid x.2.1 x.2.2) cid
        (wf_add hwf x.1 cid x.2.1 x.2.2) _ hstep
      rw [show addCalls db cid (x :: xs)
          = addCalls (add_message db x.1 cid x.2.1 x.2.2) cid xs from rfl]
      rw [hrec, List.append_assoc, List.map_cons, List.getLastD_cons, List.map_cons]
      rfl

/-- Reading a conversation created on a store holding no rows that
already reference the fresh id: the view is empty with both timestamps
at the creation clock. -/
theorem get_conversation_create (db : DB) (hwf : WF db) (now : Nat) (title : String)
    (hfresh : ∀ m ∈ db.messages, m.conversation_id ≠ db.convSeq + 1) :
    get_conversation (create_conversation db now title).1 (create_conversation db now title).2
      = some ⟨db.convSeq + 1, title, now, now, []⟩ := by
  have h2 : (create_conversation db now title).2 = db.convSeq + 1 := rfl
  rw [h2]
  unfold get_conversation
  have hconvs : (create_conversation db now title).1.conversations
      = db.conversations ++ [⟨db.convSeq + 1, title, now, now⟩] := rfl
  rw [hconvs]
  have hfind : (db.conversations ++ [(⟨db.convSeq + 1, title, now, now⟩ : Conversation)]).find?
      (fun c => c.id == db.convSeq + 1) = some ⟨db.convSeq + 1, title, now, now⟩ := by
    rw [List.find?_append]
    have h1 : db.conversations.find? (fun c => c.id == db.convSeq + 1) = none := by
      rw [List.find?_eq_none]
      intro c hc
      have := hwf.conv_le c hc
      simp only [beq_iff_eq]
      omega
    rw [h1, Option.none_or]
    simp [List.find?_cons]
  rw [hfind]
  have hmsgs : (create_conversation db now title).1.messages = db.messages := rfl
  rw [hmsgs]
  have hfilter : db.messages.filter (fun m => m.conversation_id == db.convSeq + 1) = [] := by
    rw [List.filter_eq_nil_iff]
    intro m hm
    simp only [beq_iff_eq]
    exact hfresh m hm
  rw [hfilter]
  rfl

/-- The updated_at column read back through get_conversation. -/
theorem updatedAt_of_get {db : DB} {cid : Nat} {v : ConvView}
    (hget : get_conversation db cid = some v) : updatedAt db cid = v.updated_at := by
  unfold get_conversation at hget
  unfold updatedAt
  cases hfind : db.conversations.find? (fun c => c.id == cid) with
  | none => rw [hfind] at hget; cases hget
  | some c =>
      rw [hfind] at hget
      rw [← Option.some.inj hget]
      rfl

/-- A value chained below a list bounds the list's last element. -/
theorem chain_le_getLastD {a : Nat} {l : List Nat} (h : List.Chain (· ≤ ·) a l) :
    a ≤ l.getLastD a := by
  induction l generalizing a with
  | nil => exact le_refl a
  | cons b l ih =>
      cases h with
      | cons hab htl =>
          rw [List.getLastD_cons]
          exact le_trans hab (ih htl)

/-- Along a nondecreasing chain, the last element of each prefix is
monotone in the prefix length. -/
theorem chain_getLastD_take_mono {a : Nat} {l : List Nat} (h : List.Chain (· ≤ ·) a l)
    (k : Nat) : (l.take k).getLastD a ≤ (l.take (k + 1)).getLastD a := by
  induction l generalizing a k with
  | nil => simp
  | cons b l ih =>
      cases h with
      | cons hab htl =>
          cases k with
          | zero => simpa [List.getLastD_cons] using hab
          | succ k =>
              simp only [List.take_succ_cons, List.getLastD_cons]
              exact ih htl k

/-- C8: starting from a fresh conversation (no pre-existing rows carry
its id) and clock values that never go backwards, N addMessage calls
leave getConversation returning exactly the N messages in call order,
with created_at fixed at the creation clock and updated_at equal to the
clock of the last call; updated_at never decreases from one call to the
next and stays at or above created_at. -/
theorem add_messages_in_order (db : DB) (hwf : WF db) (now0 : Nat) (title : String)
    (calls : List (Nat × String × String))
    (hfresh : ∀ m ∈ db.messages, m.conversation_id ≠ db.convSeq + 1)
    (hmono : List.Chain (· ≤ ·) now0 (calls.map Prod.fst)) :
    get_conversation
        (addCalls (create_conversation db now0 title).1
          (create_conversation db now0 title).2 calls)
        (create_conversation db now0 title).2
      = some ⟨(create_conversation db now0 title).2, title, now0,
              (calls.map Prod.fst).getLastD now0,
              calls.map (fun x => ⟨x.2.1, x.2.2, x.1⟩)⟩ ∧
      (∀ k : Nat,
        updatedAt (addCalls (create_conversation db now0 title).1
            (create_conversation db now0 title).2 (calls.take k))
            (create_conversation db now0 title).2
          ≤ updatedAt (addCalls (create_conversation db now0 title).1
              (create_conversation db now0 title).2 (calls.take (k + 1)))
              (create_conversation db now0 title).2) ∧
      now0 ≤ (calls.map Prod.fst).getLastD now0 := by
  have hwf1 := wf_create hwf now0 title
  have hget0 := get_conversation_create db hwf now0 title hfresh
  refine ⟨?_, ?_, chain_le_getLastD hmono⟩
  · have hall := addCalls_get calls (create_conversation db now0 title).1
      (create_conversation db now0 title).2 hwf1 _ hget0
    rw [hall]
    rfl
  · intro k
    have hk := addCalls_get (calls.take k) (create_conversation db now0 title).1
      (create_conversation db now0 title).2 hwf1 _ hget0
    have hk1 := addCalls_get (calls.take (k + 1)) (create_conversation db now0 title).1
      (create_conversation db now0 title).2 hwf1 _ hget0
    rw [updatedAt_of_get hk, updatedAt_of_get hk1]
    show ((calls.take k).map Prod.fst).getLastD now0
        ≤ ((calls.take (k + 1)).map Prod.fst).getLastD now0
    rw [List.map_take, List.map_take]
    exact chain_getLastD_take_mono hmono k

/-- C8 witness: two calls at clocks 2 and 3 on a conversation created at
clock 1. -/
theorem add_messages_in_order_witness :
    get_conversation
        (addCalls (create_conversation initDB 1 "T").1
          (create_conversation initDB 1 "T").2 [(2, "user", "hi"), (3, "assistant", "ok")])
        (create_conversation initDB 1 "T").2
      = some ⟨(create_conversation initDB 1 "T").2, "T", 1,
              ([(2, "user", "hi"), (3, "assistant", "ok")].map Prod.fst).getLastD 1,
              [(2, "user", "hi"), (3, "assistant", "ok")].map (fun x => ⟨x.2.1, x.2.2, x.1⟩)⟩ ∧
      (∀ k : Nat,
        updatedAt (addCalls (create_conversation initDB 1 "T").1
            (create_conversation initDB 1 "T").2
            ([(2, "user", "hi"), (3, "assistant", "ok")].take k))
            (create_conversation initDB 1 "T").2
          ≤ updatedAt (addCalls (create_conversation initDB 1 "T").1
              (create_conversation initDB 1 "T").2
              ([(2, "user", "hi"), (3, "assistant", "ok")].take (k + 1)))
              (create_conversation initDB 1 "T").2) ∧
      1 ≤ ([(2, "user", "hi"), (3, "assistant", "ok")].map Prod.fst).getLastD 1 :=
  add_messages_in_order initDB (by decide) 1 "T" [(2, "user", "hi"), (3, "assistant", "ok")]
    (by decide)
    (List.Chain.cons (by decide) (List.Chain.cons (by decide) List.Chain.nil))

/-! ### SELECT DISTINCT over the search join (C6) -/

/-- The DISTINCT pass only consults membership in the seen set, so two
seen sets that agree on every element of the list give the same result. -/
theorem sqlDistinctAux_congr_seen {α : Type} [DecidableEq α] (l : List α) :
    ∀ s1 s2 : List α, (∀ a ∈ l, a ∈ s1 ↔ a ∈ s2) →
      sqlDistinctAux l s1 = sqlDistinctAux l s2 := by
  induction l with
  | nil => intro s1 s2 _; rfl
  | cons a l ih =>
      intro s1 s2 h
      have ha := h a (List.mem_cons_self a l)
      by_cases h1 : a ∈ s1
      · simp only [sqlDistinctAux, if_pos h1, if_pos (ha.mp h1)]
        exact ih s1 s2 (fun b hb => h b (List.mem_cons_of_mem a hb))
      · simp only [sqlDistinctAux, if_neg h1, if_neg (fun hx => h1 (ha.mpr hx))]
        congr 1
        apply ih
        intro b hb
        simp only [List.mem_cons]
        exact or_congr Iff.rfl (h b (List.mem_cons_of_mem a hb))

/-- A run of copies of an already-seen value contributes nothing to the
DISTINCT output. -/
theorem sqlDistinctAux_replicate_mem {α : Type} [DecidableEq α] (e : α) (seen : List α)
    (he : e ∈ seen) : ∀ (k : Nat) (rest : List α),
      sqlDistinctAux (List.replicate k e ++ rest) seen = sqlDistinctAux rest seen := by
  intro k
  induction k with
  | zero => intro rest; rfl
  | succ k ih =>
      intro rest
      rw [List.replicate_succ]
      simp only [List.cons_append, sqlDistinctAux, if_pos he]
      exact ih rest

/-- A nonempty run of copies of an unseen value contributes exactly one
occurrence, after which the value counts as seen. -/
theorem sqlDistinctAux_replicate_block {α : Type} [DecidableEq α] (e : α) (seen : List α)
    (he : e ∉ seen) (k : Nat) (hk : k ≠ 0) (rest : List α) :
    sqlDistinctAux (List.replicate k e ++ rest) seen
      = e :: sqlDistinctAux rest (e :: seen) := by
  cases k with
  | zero => exact absurd rfl hk
  | succ k =>
      rw [List.replicate_succ]
      simp only [List.cons_append, sqlDistinctAux, if_neg he]
      congr 1
      exact sqlDistinctAux_replicate_mem e (e :: seen) (List.mem_cons_self e seen) k rest

/-- Every join row contributed by a conversation carries that
conversation on its left side. -/
theorem joinRow_fst (db : DB) (c : Conversation) : ∀ r ∈ joinRow db c, r.1 = c := by
  intro r hr
  unfold joinRow at hr
  rcases hfm : db.messages.filter (fun m => m.conversation_id == c.id) with _ | ⟨m, ms⟩
  · rw [hfm] at hr
    rw [List.mem_singleton.mp hr]
  · rw [hfm] at hr
    rcases List.mem_map.mp hr with ⟨m2, _, rfl⟩
    rfl

/-- After the WHERE filter, the projected entries of one conversation's
join rows are identical copies of that conversation's entry. -/
theorem joinRow_filter_map (db : DB) (q : String) (c : Conversation) :
    ((joinRow db c).filter (rowWhere q)).map (fun r => entryOf db r.1)
      = List.replicate ((joinRow db c).filter (rowWhere q)).length (entryOf db c) := by
  rw [List.eq_replicate_iff]
  refine ⟨by rw [List.length_map], ?_⟩
  intro b hb
  rcases List.mem_map.mp hb with ⟨r, hr, rfl⟩
  rw [joinRow_fst db c r (List.mem_of_mem_filter hr)]

/-- A conversation contributes at least one surviving join row exactly
when its title matches or one of its messages matches. -/
theorem joinRow_filter_length_pos (db : DB) (q : String) (c : Conversation) :
    (((joinRow db c).filter (rowWhere q)).length ≠ 0) ↔ convMatches db q c = true := by
  rw [Ne, List.length_eq_zero, List.filter_eq_nil_iff]
  unfold joinRow convMatches
  rcases hfm : db.messages.filter (fun m => m.conversation_id == c.id) with _ | ⟨m, ms⟩
  · rw [hfm]
    simp [rowWhere]
  · rw [hfm]
    by_cases ht : likeMatch c.title q = true
    · simp only [ht, Bool.true_or, iff_true]
      intro hall
      exact (hall (c, some m) (by simp) ) (by simp [rowWhere, ht])
    · simp only [Bool.not_eq_true] at ht
      simp [rowWhere, ht, List.any_eq_true]
      by_cases hm2 : likeMatch m.content q = true
      · simp [hm2]
      · simp only [Bool.not_eq_true] at hm2
        simp [hm2]

/-- The DISTINCT stage of search_conversations collapses the filtered
join to one entry per matching conversation, in table order. -/
theorem search_distinct_eq (db : DB) (q : String) :
    ∀ (cs : List Conversation) (seen : List ConvEntry),
      (cs.map Conversation.id).Nodup →
      (∀ c ∈ cs, entryOf db c ∉ seen) →
      sqlDistinctAux (((cs.flatMap (joinRow db)).filter (rowWhere q)).map
          (fun r => entryOf db r.1)) seen
        = (cs.filter (convMatches db q)).map (entryOf db) := by
  intro cs
  induction cs with
  | nil => intro seen _ _; rfl
  | cons c cs ih =>
      intro seen hnodup hseen
      rw [List.map_cons] at hnodup
      obtain ⟨hcnotin, htailnodup⟩ := List.nodup_cons.mp hnodup
      have htailseen : ∀ c2 ∈ cs, entryOf db c2 ∉ seen :=
        fun c2 h2 => hseen c2 (List.mem_cons_of_mem c h2)
      rw [List.flatMap_cons, List.filter_append, List.map_append, joinRow_filter_map]
      by_cases hm : convMatches db q c = true
      · have hk : ((joinRow db c).filter (rowWhere q)).length ≠ 0 :=
          (joinRow_filter_length_pos db q c).mpr hm
        rw [sqlDistinctAux_replicate_block (entryOf db c) seen
          (hseen c (List.mem_cons_self c cs)) _ hk]
        have hcongr : sqlDistinctAux
            (((cs.flatMap (joinRow db)).filter (rowWhere q)).map
              (fun r => entryOf db r.1)) (entryOf db c :: seen)
            = sqlDistinctAux
              (((cs.flatMap (joinRow db)).filter (rowWhere q)).map
                (fun r => entryOf db r.1)) seen := by
          apply sqlDistinctAux_congr_seen
          intro a ha
          have hne : a ≠ entryOf db c := by
            rcases List.mem_map.mp ha with ⟨r, hr, rfl⟩
            have hrin := List.mem_of_mem_filter hr
            rcases List.mem_flatMap.mp hrin with ⟨c2, hc2, hrc2⟩
            rw [joinRow_fst db c2 r hrc2]
            intro heq
            have hid : c2.id = c.id := congrArg ConvEntry.id heq
            exact hcnotin (hid ▸ List.mem_map_of_mem Conversation.id hc2)
          simp [List.mem_cons, hne]
        rw [hcongr, ih seen htailnodup htailseen, List.filter_cons_of_pos hm, List.map_cons]
      · have hk : ((joinRow db c).filter (rowWhere q)).length = 0 := by
          by_contra hne
          exact hm ((joinRow_filter_length_pos db q c).mp hne)
        rw [hk, List.replicate_zero, List.nil_append, ih seen htailnodup htailseen,
          List.filter_cons_of_neg (by simp [hm])]

/-- With pairwise-distinct conversation ids, each id is carried by
exactly one conversation, so a per-id count over the table reduces to a
check on that conversation. -/
theorem countP_id_unique (cs : List Conversation)
    (hnodup : (cs.map Conversation.id).Nodup)
    (c : Conversation) (hc : c ∈ cs) (p : Conversation → Bool) :
    cs.countP (fun c2 => (c2.id == c.id) && p c2) = if p c then 1 else 0 := by
  induction cs with
  | nil => cases hc
  | cons h t ih =>
      rw [List.map_cons] at hnodup
      obtain ⟨hnotin, htail⟩ := List.nodup_cons.mp hnodup
      rcases List.mem_cons.mp hc with hch | hct
      · subst hch
        rw [List.countP_cons]
        have hzero : t.countP (fun c2 => (c2.id == c.id) && p c2) = 0 := by
          rw [List.countP_eq_zero]
          intro c2 hc2
          simp only [Bool.and_eq_true, beq_iff_eq, not_and]
          intro hid
          exact absurd (hid ▸ List.mem_map_of_mem Conversation.id hc2) hnotin
        rw [hzero]
        simp
      · have hne : (h.id == c.id) = false := by
          simp only [beq_eq_false_iff_ne, ne_eq]
          intro hid
          exact hnotin (hid ▸ List.mem_map_of_mem Conversation.id hct)
        rw [List.countP_cons]
        simp only [hne, Bool.false_and]
        rw [ih htail hct]
        simp

/-- A pattern consisting of a single percent wildcard accepts every
subject. -/
theorem likeRun_percent_nil (s : List Char) : likeRun ['%'] s = true := by
  have h : likeRun ['%'] s = s.tails.any (fun t => likeRun [] t) := by
    simp [likeRun]
  rw [h, List.any_eq_true]
  exact ⟨[], (List.mem_tails _ _).mpr List.nil_suffix, rfl⟩

/-- A wildcard-free literal run followed by a trailing percent accepts
exactly the subjects it prefixes. -/
theorem likeRun_literal_append : ∀ (qc : List Char), (∀ c ∈ qc, c ≠ '%' ∧ c ≠ '_') →
    ∀ s, likeRun (qc ++ ['%']) s = true ↔ qc <+: s := by
  intro qc
  induction qc with
  | nil =>
      intro _ s
      rw [List.nil_append, likeRun_percent_nil]
      simp [ List.nil_prefix]
  | cons p qc ih =>
      intro hq s
      obtain ⟨hp, hu⟩ := hq p (List.mem_cons_self p qc)
      have hqtail : ∀ c ∈ qc, c ≠ '%' ∧ c ≠ '_' :=
        fun c hc => hq c (List.mem_cons_of_mem p hc)
      rw [List.cons_append]
      cases s with
      | nil =>
          rw [show likeRun (p :: (qc ++ ['%'])) [] = false from by simp [likeRun, hp]]
          simp [ List.prefix_nil]
      | cons c s2 =>
          rw [show likeRun (p :: (qc ++ ['%'])) (c :: s2)
              = ((p == '_' || p == c) && likeRun (qc ++ ['%']) s2) from by
            simp [likeRun, hp]]
          rw [ List.cons_prefix_cons]
          have hpu : (p == '_') = false := beq_eq_false_iff_ne.mpr hu
          rw [hpu, Bool.false_or, Bool.and_eq_true, beq_iff_eq, ih hqtail s2]

/-- The full interpolated pattern percent, literal run, percent accepts
exactly the subjects containing the run, i.e. substring containment —
provided the query itself carries no wildcard. -/
theorem likeRun_contains_iff (qc : List Char) (hq : ∀ c ∈ qc, c ≠ '%' ∧ c ≠ '_')
    (s : List Char) :
    likeRun ('%' :: (qc ++ ['%'])) s = true ↔ qc <:+: s := by
  rw [show likeRun ('%' :: (qc ++ ['%'])) s
      = s.tails.any (fun t => likeRun (qc ++ ['%']) t) from by simp [likeRun]]
  rw [List.any_eq_true]
  constructor
  · rintro ⟨t, ht, hrun⟩
    obtain ⟨u, hu⟩ := (List.mem_tails _ _).mp ht
    obtain ⟨v, hv⟩ := (likeRun_literal_append qc hq t).mp hrun
    exact ⟨u, v, by rw [← hu, ← hv, List.append_assoc]⟩
  · rintro ⟨u, v, hs⟩
    refine ⟨qc ++ v, (List.mem_tails _ _).mpr ⟨u, by rw [← List.append_assoc]; exact hs⟩,
      (likeRun_literal_append qc hq (qc ++ v)).mpr ⟨v, rfl⟩⟩

/-- For queries free of the LIKE metacharacters, the interpolated
pattern implements exactly case-folded substring containment. -/
theorem likeMatch_substring_iff (s q : String)
    (hq : '%' ∉ q.data ∧ '_' ∉ q.data) :
    likeMatch s q = true ↔ (q.data.map Char.toLower) <:+: (s.data.map Char.toLower) := by
  apply likeRun_contains_iff
  intro c hc
  rcases List.mem_map.mp hc with ⟨c0, hc0, rfl⟩
  constructor
  · intro h
    exact hq.1 ((char_toLower_eq_nonletter (Or.inl (by decide)) h) ▸ hc0)
  · intro h
    exact hq.2 ((char_toLower_eq_nonletter (Or.inl (by decide)) h) ▸ hc0)

/-- C6 counterexample: the WHERE pattern is built by f-string
interpolation, so LIKE metacharacters inside the query act as wildcards:
the query a_c is not a substring of the stored title abc under any case
folding, yet searchConversations returns that conversation because the
underscore matches the letter b.  Matching is therefore not substring
matching for every query string. -/
theorem search_wildcard_not_substring :
    (search_conversations (create_conversation initDB 0 "abc").1 "a_c" 50).map ConvEntry.title
        = ["abc"] ∧
      ¬ (("a_c".data.map Char.toLower) <:+: ("abc".data.map Char.toLower)) := by decide

/-- C6 amended: for every query free of the SQL LIKE metacharacters
percent and underscore, matching is case-insensitive substring matching
(queries carrying metacharacters follow SQLite wildcard semantics
instead, since the pattern is interpolated); with a limit that
accommodates the store (the result is not truncated),
searchConversations contains each conversation whose title or owned
message content matches the query exactly once — even when several of
its messages match — and contains non-matching conversations zero
times; the result is ordered by updated_at descending; and the matcher
is invariant under ASCII-lowercasing both operands. -/
theorem search_conversations_spec (db : DB) (q : String) (limit : Int)
    (hwf : WF db) (hL : (db.conversations.length : Int) ≤ limit) :
    (∀ c ∈ db.conversations,
        (search_conversations db q limit).countP (fun e => e.id == c.id)
          = (if convMatches db q c then 1 else 0)) ∧
      (search_conversations db q limit).Pairwise byUpdatedDesc ∧
      (∀ s p : String, likeMatch s p
          = likeMatch (String.mk (s.data.map Char.toLower))
              (String.mk (p.data.map Char.toLower))) ∧
      (∀ s p : String, '%' ∉ p.data → '_' ∉ p.data →
        (likeMatch s p = true
          ↔ (p.data.map Char.toLower) <:+: (s.data.map Char.toLower))) := by
  have hdistinct : sqlDistinct
      (((db.conversations.flatMap (joinRow db)).filter (rowWhere q)).map
        (fun r => entryOf db r.1))
      = (db.conversations.filter (convMatches db q)).map (entryOf db) :=
    search_distinct_eq db q db.conversations [] hwf.ids_nodup
      (fun _ _ h => List.not_mem_nil _ h)
  have hnonneg : (0 : Int) ≤ limit := le_trans (Int.natCast_nonneg _) hL
  have hres : search_conversations db q limit
      = List.insertionSort byUpdatedDesc
          ((db.conversations.filter (convMatches db q)).map (entryOf db)) := by
    show sqlLimitOffset limit 0
        (List.insertionSort byUpdatedDesc (sqlDistinct _)) = _
    rw [hdistinct]
    unfold sqlLimitOffset
    rw [if_neg (Int.not_lt.mpr hnonneg)]
    rw [show ((0 : Int).toNat) = 0 from rfl, List.drop_zero]
    apply List.take_of_length_le
    rw [(List.perm_insertionSort byUpdatedDesc _).length_eq, List.length_map]
    have hle := List.length_filter_le (convMatches db q) db.conversations
    omega
  refine ⟨?_, ?_, ?_, ?_⟩
  · intro c hc
    rw [hres]
    rw [List.Perm.countP_eq _ (List.perm_insertionSort byUpdatedDesc _)]
    rw [List.countP_map, List.countP_filter]
    exact countP_id_unique db.conversations hwf.ids_nodup c hc (convMatches db q)
  · rw [hres]
    exact List.sorted_insertionSort byUpdatedDesc _
  · intro s p
    have hcomp : Char.toLower ∘ Char.toLower = Char.toLower := funext char_toLower_idem
    show likeRun ('%' :: (p.data.map Char.toLower ++ ['%'])) (s.data.map Char.toLower)
        = likeRun
            ('%' :: ((String.mk (p.data.map Char.toLower)).data.map Char.toLower ++ ['%']))
            ((String.mk (s.data.map Char.toLower)).data.map Char.toLower)
    rw [show (String.mk (s.data.map Char.toLower)).data = s.data.map Char.toLower from rfl,
      show (String.mk (p.data.map Char.toLower)).data = p.data.map Char.toLower from rfl,
      List.map_map, List.map_map, hcomp]
  · intro s p h1 h2
    exact likeMatch_substring_iff s p ⟨h1, h2⟩

/-- C6 witness: a store with the conversation "Python Tutorial" carrying
one matching message, searched with the differently-cased query
"python". -/
theorem search_conversations_spec_witness :
    (∀ c ∈ (add_message (create_conversation initDB 0 "Python Tutorial").1 1 1 "user" "I love python").conversations,
        (search_conversations (add_message (create_conversation initDB 0 "Python Tutorial").1 1 1 "user" "I love python") "python" 50).countP
            (fun e => e.id == c.id)
          = (if convMatches (add_message (create_conversation initDB 0 "Python Tutorial").1 1 1 "user" "I love python") "python" c then 1 else 0)) ∧
      (search_conversations (add_message (create_conversation initDB 0 "Python Tutorial").1 1 1 "user" "I love python") "python" 50).Pairwise byUpdatedDesc ∧
      (∀ s p : String, likeMatch s p
          = likeMatch (String.mk (s.data.map Char.toLower))
              (String.mk (p.data.map Char.toLower))) ∧
      (∀ s p : String, '%' ∉ p.data → '_' ∉ p.data →
        (likeMatch s p = true
          ↔ (p.data.map Char.toLower) <:+: (s.data.map Char.toLower))) :=
  search_conversations_spec
    (add_message (create_conversation initDB 0 "Python Tutorial").1 1 1 "user" "I love python")
    "python" 50 (by decide) (by decide)

end PDFChat

